import Mathlib

/-
Shallow embedding of src/best_pdf_converter.py (class BestPDFConverter).

Modelling conventions:
- Python strings are Lean String / List Char; the ASCII fragments of the
  Python predicates (str.isupper, str.islower, str.isdigit, regex classes
  such as [A-Z], \d, \s, \w) are modelled with the ASCII character
  predicates of Lean (Char.isUpper and friends), which coincide with the
  Python semantics on ASCII text.
- Python float confidences and thresholds are modelled as exact rationals
  built with mkRat.  Every float produced by the program is a small
  fraction with denominator at most 20 (0.6, 0.65, ..., 0.95) or a
  quotient of two small list lengths, and every comparison performed by
  the program on those floats gives the same answer as the exact rational
  comparison, so the model is observation-equivalent.
- Dict candidates are the structure Candidate.  The optional cosmetic
  keys (bold, italic, color) carried by builtin-outline entries are not
  modelled: no heuristic, comparison or claim reads them.
- Missing dict keys and None values are both Option.none where the code
  treats them alike (line_number for builtin entries).
-/

/-- Python whitespace class (ASCII part of the regex class backslash-s and
of str.strip / str.split). -/
def pyIsSpace (c : Char) : Bool :=
  c = ' ' || c = '\t' || c = '\n' || c = '\r' || c = Char.ofNat 11 || c = Char.ofNat 12

/-- Python str.strip. -/
def pyStrip (l : List Char) : List Char :=
  ((l.dropWhile pyIsSpace).reverse.dropWhile pyIsSpace).reverse

/-- Auxiliary state machine for collapseWS: prevSpace records whether the
previous character belonged to a whitespace run already emitted as one ' '. -/
def collapseWSAux : Bool → List Char → List Char
  | _, [] => []
  | prevSpace, c :: rest =>
    if pyIsSpace c then
      if prevSpace then collapseWSAux true rest
      else ' ' :: collapseWSAux true rest
    else c :: collapseWSAux false rest

/-- re.sub of one or more whitespace characters by a single space: every
maximal whitespace run becomes one ' '. -/
def collapseWS (l : List Char) : List Char :=
  collapseWSAux false l

/-- Python str.split with no argument: maximal non-whitespace runs. -/
def pySplitAux (cur : List Char) : List Char → List (List Char)
  | [] => if cur.isEmpty then [] else [cur.reverse]
  | c :: rest =>
    if pyIsSpace c then
      if cur.isEmpty then pySplitAux [] rest
      else cur.reverse :: pySplitAux [] rest
    else pySplitAux (c :: cur) rest

def pySplit (l : List Char) : List (List Char) :=
  pySplitAux [] l

/-- Python str.split of a newline argument: keeps empty pieces. -/
def splitNl : List Char → List (List Char)
  | [] => [[]]
  | c :: rest =>
    if c = '\n' then [] :: splitNl rest
    else
      match splitNl rest with
      | l :: ls => (c :: l) :: ls
      | [] => [[c]]

/-- Python enumerate with a start index. -/
def enumFrom {α : Type} (n : Nat) : List α → List (Nat × α)
  | [] => []
  | a :: as => (n, a) :: enumFrom (n + 1) as

/-- Concatenation of the lists produced for each element, in order. -/
def concatMap {α β : Type} (f : α → List β) : List α → List β
  | [] => []
  | a :: as => f a ++ concatMap f as

/-- Python str.endswith of a period. -/
def endsWithDot (l : List Char) : Bool :=
  match l.getLast? with
  | some c => c = '.'
  | none => false

/-- Python str.isupper restricted to ASCII: at least one cased character
and no lowercase one. -/
def pyIsUpperStr (l : List Char) : Bool :=
  l.any Char.isAlpha && l.all (fun c => !c.isLower)

/-- A heading-candidate dict as produced by the detectors.
page_number is None for unresolvable builtin entries; line_number is the
key that builtin entries never carry. -/
structure Candidate where
  title : String
  level : Nat
  page_number : Option Int
  line_number : Option Nat
  source : String
  confidence : Rat
  deriving DecidableEq

/-- One maximal whitespace run, rewritten the way the regex sub of
newline-whitespace-newline by newline rewrites it: a run holding at least
two newlines keeps its part before the first newline, one newline, and its
part after the last newline; any other run is left unchanged. -/
def sbRun (run : List Char) : List Char :=
  if 2 ≤ run.count '\n' then
    run.takeWhile (fun c => c ≠ '\n') ++ '\n' :: (run.reverse.takeWhile (fun c => c ≠ '\n')).reverse
  else run

/-- Scanner for the blank-line collapse: pending accumulates the current
whitespace run reversed. -/
def sbAux (pending : List Char) : List Char → List Char
  | [] => sbRun pending.reverse
  | c :: rest =>
    if pyIsSpace c then sbAux (c :: pending) rest
    else sbRun pending.reverse ++ c :: sbAux [] rest

/-- re.sub of newline, optional whitespace, newline by a single newline,
scanning left to right as re.sub does. -/
def subBlankLines (l : List Char) : List Char :=
  sbAux [] l

/-- _clean_extracted_text: collapse all whitespace runs (this also removes
every newline and form feed), then map form feed to newline, then collapse
blank-line runs, then strip.  The order of the three regex subs is kept
exactly as in the source. -/
def cleanExtractedText (text : String) : String :=
  let t1 := collapseWS text.data
  let t2 := t1.map (fun c => if c = Char.ofNat 12 then '\n' else c)
  let t3 := subBlankLines t2
  String.mk (pyStrip t3)

/-- Skip pattern: the whole line is whitespace (anchored match of
whitespace-only up to the end). -/
def skipAllSpace (l : List Char) : Bool :=
  l.all pyIsSpace

/-- Skip pattern: digits only. -/
def skipAllDigits (l : List Char) : Bool :=
  !l.isEmpty && l.all Char.isDigit

/-- Skip pattern: first character lowercase. -/
def skipHeadLower (l : List Char) : Bool :=
  match l with
  | c :: _ => c.isLower
  | [] => false

/-- Skip pattern written as a period then end of line, but checked with
re.match, hence anchored at the start: it only hits the one-character
line consisting of a period. -/
def skipDotLine (l : List Char) : Bool :=
  l = ['.']

/-- Skip pattern: optional whitespace then a bullet marker. -/
def skipBullet (l : List Char) : Bool :=
  match l.dropWhile pyIsSpace with
  | c :: _ => c = '•' || c = '-' || c = '*'
  | [] => false

/-- Skip pattern: optional whitespace, digits, a period, optional
whitespace, end. -/
def skipJustNumbering (l : List Char) : Bool :=
  let l1 := l.dropWhile pyIsSpace
  let ds := l1.takeWhile Char.isDigit
  match l1.drop ds.length with
  | '.' :: rest => !ds.isEmpty && rest.all pyIsSpace
  | _ => false

/-- Skip patterns of the shape: optional whitespace, a bounded run of one
character class, optional whitespace, end. -/
def skipClassRun (minN maxN : Nat) (cls : Char → Bool) (l : List Char) : Bool :=
  let l1 := l.dropWhile pyIsSpace
  let run := l1.takeWhile cls
  decide (minN ≤ run.length) && decide (run.length ≤ maxN) && (l1.drop run.length).all pyIsSpace

/-- Skip pattern: optional whitespace, one uppercase letter, one or two
lowercase letters, optional whitespace, end. -/
def skipCapShortWord (l : List Char) : Bool :=
  match l.dropWhile pyIsSpace with
  | c :: rest =>
    c.isUpper &&
      (let run := rest.takeWhile Char.isLower
       decide (1 ≤ run.length) && decide (run.length ≤ 2) && (rest.drop run.length).all pyIsSpace)
  | [] => false

/-- re.search of a sentence-final punctuation mark followed only by
whitespace: the last non-whitespace character is one of period, bang,
question mark. -/
def endsSentence (l : List Char) : Bool :=
  match l.reverse.dropWhile pyIsSpace with
  | c :: _ => c = '.' || c = '!' || c = '?'
  | [] => false

/-- _is_regular_text: the exclusion set applied before the heading
patterns. -/
def isRegularText (l : List Char) : Bool :=
  skipAllSpace l ||
  skipAllDigits l ||
  skipHeadLower l ||
  skipDotLine l ||
  skipBullet l ||
  skipJustNumbering l ||
  skipClassRun 1 1 Char.isUpper l ||
  skipClassRun 1 2 Char.isUpper l ||
  skipClassRun 1 3 Char.isLower l ||
  skipCapShortWord l ||
  (endsSentence l && decide (10 < (pySplit l).length))

/-- State machine deciding the anchored regex match for numbered headings:
digits, then any number of groups of a period and digits, then an optional
period, then whitespace, then an uppercase letter.  State 0 expects the
first digit, state 1 is inside a digit run, state 2 is just after a
period, state 3 is inside the whitespace run. -/
def numMatch : Nat → List Char → Bool
  | _, [] => false
  | 0, c :: rest => c.isDigit && numMatch 1 rest
  | 1, c :: rest =>
    if c.isDigit then numMatch 1 rest
    else if c = '.' then numMatch 2 rest
    else if pyIsSpace c then numMatch 3 rest
    else false
  | 2, c :: rest =>
    if c.isDigit then numMatch 1 rest
    else if pyIsSpace c then numMatch 3 rest
    else false
  | 3, c :: rest =>
    if pyIsSpace c then numMatch 3 rest
    else c.isUpper
  | _ + 4, _ => false

/-- _is_title_case: at least two whitespace-separated words, the first one
capitalized, and at least sixty percent of the words capitalized.  The
Python comparison is against the float product of the word count and 0.6;
on the integer counts involved it agrees with the exact rational
comparison used here. -/
def isTitleCase (l : List Char) : Bool :=
  let ws := pySplit l
  if ws.length < 2 then false
  else
    match ws with
    | [] => false
    | w0 :: _ =>
      match w0 with
      | [] => false
      | c :: _ =>
        if !c.isUpper then false
        else
          let capCount := ws.countP (fun w => match w with | [] => false | d :: _ => d.isUpper)
          decide (mkRat capCount 1 ≥ mkRat (3 * ws.length) 5)

/-- The fixed heading keyword vocabulary. -/
def headingKeywords : List String :=
  ["introduction", "overview", "background", "method", "methodology",
   "results", "discussion", "conclusion", "summary", "abstract",
   "chapter", "section", "part", "appendix", "reference", "bibliography",
   "round", "phase", "step", "stage", "level", "challenge", "task",
   "objective", "goal", "purpose", "scope", "limitation", "requirement"]

/-- Anchored check that pat occurs at the start of l. -/
def startsWithList (pat : List Char) (l : List Char) : Bool :=
  match pat, l with
  | [], _ => true
  | _ :: _, [] => false
  | p :: ps, c :: cs => p = c && startsWithList ps cs

/-- Substring occurrence check. -/
def listHasInfix (pat : List Char) : List Char → Bool
  | [] => pat.isEmpty
  | c :: rest => startsWithList pat (c :: rest) || listHasInfix pat rest

/-- _contains_heading_keywords: case-insensitive substring test against
the fixed vocabulary. -/
def containsHeadingKeywords (l : List Char) : Bool :=
  let lower := l.map Char.toLower
  headingKeywords.any (fun k => listHasInfix k.data lower)

/-- Anchored regex of pattern 4: an uppercase letter then at least two
characters that are letters or whitespace, up to the end of the line. -/
def capAlphaLine (l : List Char) : Bool :=
  match l with
  | c :: rest => c.isUpper && decide (2 ≤ rest.length) && rest.all (fun d => d.isAlpha || pyIsSpace d)
  | [] => false

/-- Case-insensitive anchored removal of a keyword. -/
def stripWordCI : List Char → List Char → Option (List Char)
  | [], l => some l
  | _ :: _, [] => none
  | k :: ks, c :: cs => if c.toLower = k then stripWordCI ks cs else none

/-- After the section word: whitespace (at least one) then a digit. -/
def wsThenDigit (l : List Char) : Bool :=
  match l.dropWhile pyIsSpace, l.takeWhile pyIsSpace with
  | d :: _, _ :: _ => d.isDigit
  | _, _ => false

/-- Anchored, case-insensitive regex of pattern 5: a section word, then
whitespace, then a number. -/
def sectionWordMatch (l : List Char) : Bool :=
  ["section", "chapter", "part", "appendix", "round", "phase"].any fun w =>
    match stripWordCI w.data l with
    | some rest => wsThenDigit rest
    | none => false

/-- Explicit model of the one unguarded-looking subscript access line[0]:
an empty line would raise IndexError. -/
def charAt0 : List Char → Except String Char
  | [] => .error "string index out of range"
  | c :: _ => .ok c

/-- Emission guard at the end of _analyze_line_for_heading: a candidate is
returned only when the resolved confidence exceeds 0.6. -/
def emitTextCandidate (l : List Char) (pageNum lineNum : Nat) (conf : Rat) (lvl : Nat) :
    Option Candidate :=
  if mkRat 3 5 < conf then
    some ⟨String.mk l, lvl, some (pageNum : Int), some lineNum, "text_analysis", conf⟩
  else none

/-- Body of _analyze_line_for_heading after the whitespace collapse, with
the subscript access line[0] of pattern 6 modelled through charAt0.  The
pattern order and the shape of every guard follow the source. -/
def analyzeCore (l : List Char) (pageNum lineNum : Nat) : Except String (Option Candidate) :=
  if l.length < 3 || 200 < l.length then .ok none
  else if isRegularText l then .ok none
  else if numMatch 0 l then .ok (emitTextCandidate l pageNum lineNum (mkRat 9 10) (l.count '.'))
  else if pyIsUpperStr l && decide (3 < l.length) && decide (l.length < 100) then
    .ok (emitTextCandidate l pageNum lineNum (mkRat 17 20) 0)
  else if isTitleCase l && containsHeadingKeywords l then
    .ok (emitTextCandidate l pageNum lineNum (mkRat 4 5) 1)
  else if capAlphaLine l && decide ((pySplit l).length ≤ 8) then
    .ok (emitTextCandidate l pageNum lineNum (mkRat 3 4) 2)
  else if sectionWordMatch l then .ok (emitTextCandidate l pageNum lineNum (mkRat 9 10) 0)
  else if (pySplit l).length ≤ 5 then
    match charAt0 l with
    | .error e => .error e
    | .ok c0 =>
      if c0.isUpper && !endsWithDot l then
        .ok (emitTextCandidate l pageNum lineNum (mkRat 7 10) 2)
      else .ok none
  else .ok none

/-- _analyze_line_for_heading with the IndexError channel: the line is
stripped and its whitespace runs collapsed, then analyzed. -/
def analyzeLineE (line : String) (pageNum lineNum : Nat) : Except String (Option Candidate) :=
  analyzeCore (collapseWS (pyStrip line.data)) pageNum lineNum

/-- Collapse of the exception channel; the safety theorem for claim C9
shows the error branch is unreachable. -/
def exceptJoin : Except String (Option Candidate) → Option Candidate
  | .ok r => r
  | .error _ => none

/-- _analyze_line_for_heading as the callers use it. -/
def analyzeLineForHeading (line : String) (pageNum lineNum : Nat) : Option Candidate :=
  exceptJoin (analyzeLineE line pageNum lineNum)

/-- Per-line loop of _extract_headings_from_text: strip, skip empty and
short lines, analyze the rest. -/
def collectTextLines (pageNum : Nat) : List (Nat × List Char) → List Candidate
  | [] => []
  | (lineNum, l) :: rest =>
    if (pyStrip l).length < 3 then collectTextLines pageNum rest
    else
      match analyzeLineForHeading (String.mk (pyStrip l)) pageNum lineNum with
      | some c => c :: collectTextLines pageNum rest
      | none => collectTextLines pageNum rest

/-- Per-page body of _extract_headings_from_text: skip falsy text, clean
it, split into lines, analyze each line. -/
def textPageHeadings (pageNum : Nat) (raw : String) : List Candidate :=
  if raw = "" then []
  else collectTextLines pageNum (enumFrom 1 (splitNl (cleanExtractedText raw).data))

/-- _extract_headings_from_text over the 1-indexed page stream. -/
def extractHeadingsFromText (pages : List String) : List Candidate :=
  concatMap (fun pr => textPageHeadings pr.1 pr.2) (enumFrom 1 pages)

/-- Body of the per-line font heuristic after the strip, with the
subscript access line[0] modelled through charAt0. -/
def fontCore (l : List Char) (pageNum lineNum : Nat) : Except String (Option Candidate) :=
  if decide (3 < l.length) && decide (l.length < 50) then
    if pyIsUpperStr l then
      .ok (some ⟨String.mk l, 1, some (pageNum : Int), some lineNum, "font_analysis", mkRat 3 5⟩)
    else
      match charAt0 l with
      | .error e => .error e
      | .ok c0 =>
        if c0.isUpper && decide ((pySplit l).length ≤ 6) && !endsWithDot l then
          .ok (some ⟨String.mk l, 1, some (pageNum : Int), some lineNum, "font_analysis", mkRat 3 5⟩)
        else .ok none
  else .ok none

/-- Per-line body of _extract_headings_by_font: the line is stripped
first, as in the source loop. -/
def fontLineE (line : String) (pageNum lineNum : Nat) : Except String (Option Candidate) :=
  fontCore (pyStrip line.data) pageNum lineNum

/-- Per-line loop of _extract_headings_by_font. -/
def collectFontLines (pageNum : Nat) : List (Nat × List Char) → List Candidate
  | [] => []
  | (lineNum, l) :: rest =>
    match exceptJoin (fontLineE (String.mk l) pageNum lineNum) with
    | some c => c :: collectFontLines pageNum rest
    | none => collectFontLines pageNum rest

/-- Per-page body of _extract_headings_by_font: the raw text is split on
newlines with no prior cleaning. -/
def fontPageHeadings (pageNum : Nat) (raw : String) : List Candidate :=
  if raw = "" then []
  else collectFontLines pageNum (enumFrom 1 (splitNl raw.data))

/-- _extract_headings_by_font over the 1-indexed page stream. -/
def extractHeadingsByFont (pages : List String) : List Candidate :=
  concatMap (fun pr => fontPageHeadings pr.1 pr.2) (enumFrom 1 pages)

/-- Body of the per-line position heuristic after the strip, with the
subscript access line[0] modelled through charAt0. -/
def positionCore (l : List Char) (pageNum lineNum : Nat) : Except String (Option Candidate) :=
  if decide (lineNum ≤ 3) && decide (3 < l.length) && decide (l.length < 100) then
    match charAt0 l with
    | .error e => .error e
    | .ok c0 =>
      if c0.isUpper && !endsWithDot l then
        .ok (some ⟨String.mk l, if lineNum = 1 then 0 else 1, some (pageNum : Int),
          some lineNum, "position_analysis", mkRat 13 20⟩)
      else .ok none
  else .ok none

/-- Per-line body of _extract_headings_by_position: the line is stripped
first, as in the source loop. -/
def positionLineE (line : String) (pageNum lineNum : Nat) : Except String (Option Candidate) :=
  positionCore (pyStrip line.data) pageNum lineNum

/-- Per-line loop of _extract_headings_by_position. -/
def collectPositionLines (pageNum : Nat) : List (Nat × List Char) → List Candidate
  | [] => []
  | (lineNum, l) :: rest =>
    match exceptJoin (positionLineE (String.mk l) pageNum lineNum) with
    | some c => c :: collectPositionLines pageNum rest
    | none => collectPositionLines pageNum rest

/-- Per-page body of _extract_headings_by_position. -/
def positionPageHeadings (pageNum : Nat) (raw : String) : List Candidate :=
  if raw = "" then []
  else collectPositionLines pageNum (enumFrom 1 (splitNl raw.data))

/-- _extract_headings_by_position over the 1-indexed page stream. -/
def extractHeadingsByPosition (pages : List String) : List Candidate :=
  concatMap (fun pr => positionPageHeadings pr.1 pr.2) (enumFrom 1 pages)

/-- A page reference carried by an outline entry: integer-like, float-like
(modelled as an exact rational; the Python int() conversion truncates it
toward zero), or an arbitrary string.  None models an absent or None page
attribute. -/
inductive PageRef where
  | intRef (n : Int)
  | floatRef (x : Rat)
  | strRef (s : String)
  deriving DecidableEq

/-- Python int() on a float: truncation toward zero. -/
def ratTrunc (x : Rat) : Int :=
  if 0 ≤ x then x.floor else x.ceil

/-- First maximal digit run of a string, as found by re.findall of one or
more digits. -/
def firstDigitRun : List Char → Option (List Char)
  | [] => none
  | c :: rest => if c.isDigit then some (c :: rest.takeWhile Char.isDigit) else firstDigitRun rest

/-- Digit run to number. -/
def digitsToNat (l : List Char) : Nat :=
  l.foldl (fun acc c => 10 * acc + (c.toNat - 48)) 0

/-- _get_page_number: an integer-like page converts directly, a float-like
page through int(float(.)), a string page through its first embedded digit
run; each is shifted from 0-based to 1-based by adding one.  None when no
page is resolvable. -/
def getPageNumber : Option PageRef → Option Int
  | none => none
  | some (.intRef n) => some (n + 1)
  | some (.floatRef x) => some (ratTrunc x + 1)
  | some (.strRef s) =>
    match firstDigitRun s.data with
    | some ds => some ((digitsToNat ds : Int) + 1)
    | none => none

/-- The outline structure handed to _process_outline_items: a sequence
whose elements are leaf entries or nested sub-sequences. -/
inductive OutlineForest where
  | nil
  | consEntry (title : String) (page : Option PageRef) (rest : OutlineForest)
  | consGroup (group : OutlineForest) (rest : OutlineForest)
  deriving DecidableEq

/-- An outline item record before _extract_builtin_outline stamps the
source and confidence onto it. -/
structure OutlineRec where
  title : String
  level : Nat
  page_number : Option Int
  deriving DecidableEq

/-- _process_outline_items: recursive flattening; a nested sub-sequence is
processed at the next level and spliced in place. -/
def processOutlineItems : OutlineForest → Nat → List OutlineRec
  | .nil, _ => []
  | .consEntry t p rest, lvl =>
    ⟨t, lvl, getPageNumber p⟩ :: processOutlineItems rest lvl
  | .consGroup g rest, lvl =>
    processOutlineItems g (lvl + 1) ++ processOutlineItems rest lvl

/-- Truthiness of the outline attribute: an empty sequence is falsy and
skips extraction. -/
def outlineIsEmpty : OutlineForest → Bool
  | .nil => true
  | _ => false

/-- _extract_builtin_outline: every flattened item is stamped with source
builtin_outline and confidence 0.95; builtin entries carry no line
number. -/
def extractBuiltinOutline (o : OutlineForest) : List Candidate :=
  if outlineIsEmpty o then []
  else
    (processOutlineItems o 0).map fun r =>
      ⟨r.title, r.level, r.page_number, none, "builtin_outline", mkRat 19 20⟩

/-- _normalize_title: lowercase, strip, collapse whitespace runs, then
drop every character that is not alphanumeric, underscore or
whitespace. -/
def normalizeTitle (title : String) : List Char :=
  let lowered := title.data.map Char.toLower
  let collapsed := collapseWS (pyStrip lowered)
  collapsed.filter (fun c => c.isAlphanum || c = '_' || pyIsSpace c)

/-- Set of distinct tokens, keeping first occurrences; the length of the
result is the cardinality of the Python set of words. -/
def distinctTokens (seen : List (List Char)) : List (List Char) → List (List Char)
  | [] => []
  | w :: ws => if seen.contains w then distinctTokens seen ws else w :: distinctTokens (w :: seen) ws

/-- _calculate_similarity: word-set Jaccard similarity of the two
normalized titles, zero when either side is empty. -/
def calculateSimilarity (title1 title2 : List Char) : Rat :=
  if title1.isEmpty || title2.isEmpty then 0
  else
    let words1 := distinctTokens [] (pySplit title1)
    let words2 := distinctTokens [] (pySplit title2)
    if words1.isEmpty || words2.isEmpty then 0
    else
      let inter := words1.filter (fun w => words2.contains w)
      let union := distinctTokens [] (words1 ++ words2)
      if union.isEmpty then 0 else mkRat inter.length union.length

/-- Scan of the accepted list for a duplicate of heading h: the first
accepted entry with an identical normalized title, or with word-set
similarity above 0.8, stops the scan.  The entry of the pair with strictly
higher confidence survives; a replacement removes the accepted entry in
place and appends h at the end of the whole accepted list.  None means no
duplicate was found. -/
def dedupScan (h : Candidate) : List Candidate → Option (List Candidate)
  | [] => none
  | e :: rest =>
    if normalizeTitle h.title = normalizeTitle e.title then
      some (if e.confidence < h.confidence then rest ++ [h] else e :: rest)
    else if mkRat 4 5 < calculateSimilarity (normalizeTitle h.title) (normalizeTitle e.title) then
      some (if e.confidence < h.confidence then rest ++ [h] else e :: rest)
    else
      match dedupScan h rest with
      | some acc2 => some (e :: acc2)
      | none => none

/-- Main loop of _advanced_deduplication over the incoming headings;
acc is the accepted list built so far.  Headings whose stripped title is
empty are skipped. -/
def dedupFold (acc : List Candidate) : List Candidate → List Candidate
  | [] => acc
  | h :: hs =>
    if (pyStrip h.title.data).isEmpty then dedupFold acc hs
    else
      match dedupScan h acc with
      | some acc2 => dedupFold acc2 hs
      | none => dedupFold (acc ++ [h]) hs

/-- _advanced_deduplication. -/
def advancedDeduplication (headings : List Candidate) : List Candidate :=
  dedupFold [] headings

/- Result tree node: a candidate together with the children attached to
it by _build_hierarchy. -/
mutual
inductive HNode : Type where
  | mk (cand : Candidate) (children : HForest)
  deriving DecidableEq
inductive HForest : Type where
  | nil : HForest
  | cons (head : HNode) (tail : HForest) : HForest
  deriving DecidableEq
end

def hnodeLevel : HNode → Nat
  | .mk c _ => c.level

def hnodeCand : HNode → Candidate
  | .mk c _ => c

def listToHForest : List HNode → HForest
  | [] => .nil
  | h :: t => .cons h (listToHForest t)

/-- Stable insertion into an already-built list: the new element goes
before the first entry it is strictly below in the key order. -/
def insOrd (lt : Candidate → Candidate → Bool) (a : Candidate) : List Candidate → List Candidate
  | [] => [a]
  | b :: bs => if lt a b then a :: b :: bs else b :: insOrd lt a bs

/-- Stable sort in the manner of Python list.sort: elements with equal
keys keep their order. -/
def stableSort (lt : Candidate → Candidate → Bool) (l : List Candidate) : List Candidate :=
  l.foldl (fun acc a => insOrd lt a acc) []

/-- Sort key access of the final sorts: a missing page number sorts as 0.
In the source the page_number key is always present and the default of
dict.get is only reached for the missing line_number key; a None value
would make the Python tuple comparison raise on mixed inputs, and the
model follows the sorted-as-zero reading documented in the spec for every
input on which the source returns at all. -/
def pageKey (c : Candidate) : Int :=
  (c.page_number).getD 0

def lineKey (c : Candidate) : Nat :=
  (c.line_number).getD 0

/-- Strict order of the sort key (level, page, line) used by
_build_hierarchy. -/
def ltLevelPageLine (a b : Candidate) : Bool :=
  decide (a.level < b.level) ||
    (a.level = b.level &&
      (decide (pageKey a < pageKey b) ||
        (pageKey a = pageKey b && decide (lineKey a < lineKey b))))

/-- Strict order of the sort key (page, line) used by
extract_all_headings before building the hierarchy. -/
def ltPageLine (a b : Candidate) : Bool :=
  decide (pageKey a < pageKey b) || (pageKey a = pageKey b && decide (lineKey a < lineKey b))

/-- Pop-and-attach chain: node is a finished subtree whose root was just
popped; it is attached to the entry below it (or to the roots when none is
left), and the popping continues while the entry below also has level at
least lvl. -/
def attachAndContinue (lvl : Nat) (node : HNode) :
    List (Candidate × List HNode) → List HNode → List (Candidate × List HNode) × List HNode
  | [], rootsRev => ([], node :: rootsRev)
  | (q, qkids) :: bb, rootsRev =>
    if lvl ≤ q.level then
      attachAndContinue lvl (HNode.mk q (listToHForest (node :: qkids).reverse)) bb rootsRev
    else ((q, node :: qkids) :: bb, rootsRev)

/-- The while loop of _build_hierarchy: pop the stack while its top has
level at least lvl.  In the source a popped dict was attached to its
parent by reference when it was pushed; the functional model attaches the
finished subtree when it is popped, which yields the same trees in the
same order. -/
def popStack (lvl : Nat) :
    List (Candidate × List HNode) → List HNode → List (Candidate × List HNode) × List HNode
  | [], rootsRev => ([], rootsRev)
  | (p, kids) :: below, rootsRev =>
    if lvl ≤ p.level then
      attachAndContinue lvl (HNode.mk p (listToHForest kids.reverse)) below rootsRev
    else ((p, kids) :: below, rootsRev)

/-- The for loop of _build_hierarchy: each candidate pops its
non-ancestors and is pushed with no children yet. -/
def hierLoop : List Candidate → List (Candidate × List HNode) → List HNode →
    List (Candidate × List HNode) × List HNode
  | [], stack, rootsRev => (stack, rootsRev)
  | c :: cs, stack, rootsRev =>
    let pr := popStack c.level stack rootsRev
    hierLoop cs ((c, []) :: pr.1) pr.2

/-- End-of-input drain of the stack: every still-open entry is finished
bottom-up, exactly as the reference semantics completes the mutated
dicts. -/
def flushAttach (node : HNode) :
    List (Candidate × List HNode) → List HNode → List HNode
  | [], rootsRev => node :: rootsRev
  | (q, qkids) :: bb, rootsRev =>
    flushAttach (HNode.mk q (listToHForest (node :: qkids).reverse)) bb rootsRev

def flushStack : List (Candidate × List HNode) → List HNode → List HNode
  | [], rootsRev => rootsRev
  | (p, kids) :: below, rootsRev =>
    flushAttach (HNode.mk p (listToHForest kids.reverse)) below rootsRev

/-- _build_hierarchy: sort by (level, page, line), then run the stack
algorithm; the returned list holds the top-level nodes in insertion
order. -/
def buildHierarchy (headings : List Candidate) : List HNode :=
  let sorted := stableSort ltLevelPageLine headings
  let pr := hierLoop sorted [] []
  (flushStack pr.1 pr.2).reverse

/-- The extraction_methods block of the report. -/
structure ExtractionMethods where
  builtin_outline : Nat
  text_analysis : Nat
  font_analysis : Nat
  position_analysis : Nat
  deriving DecidableEq

/-- The report object serialized on success. -/
structure Report where
  pdf_filename : String
  total_headings : Nat
  extraction_methods : ExtractionMethods
  headings : List HNode

/-- A successfully parsed document: its per-page extracted texts and its
builtin outline. -/
structure PdfDoc where
  filename : String
  pages : List String
  outline : OutlineForest

/-- load_pdf: False on a missing file, on a parse exception, and on a
document with zero pages. -/
def loadPdf (fileExists : Bool) (parsed : Option PdfDoc) : Option PdfDoc :=
  if fileExists = false then none
  else
    match parsed with
    | none => none
    | some d => if d.pages.length = 0 then none else some d

/-- The concatenation order of the four detector outputs in
extract_all_headings. -/
def allDetectorHeadings (d : PdfDoc) : List Candidate :=
  extractBuiltinOutline d.outline ++ extractHeadingsFromText d.pages ++
    extractHeadingsByFont d.pages ++ extractHeadingsByPosition d.pages

/-- Body of extract_all_headings after a successful load: run the four
detectors, deduplicate, sort by page and line, build the hierarchy, and
assemble the report with the per-detector raw counts. -/
def extractAllHeadingsCore (d : PdfDoc) : Report :=
  let builtinHeadings := extractBuiltinOutline d.outline
  let textHeadings := extractHeadingsFromText d.pages
  let fontHeadings := extractHeadingsByFont d.pages
  let positionHeadings := extractHeadingsByPosition d.pages
  let finalHeadings := advancedDeduplication
    (builtinHeadings ++ textHeadings ++ fontHeadings ++ positionHeadings)
  let finalSorted := stableSort ltPageLine finalHeadings
  { pdf_filename := d.filename
    total_headings := finalSorted.length
    extraction_methods :=
      { builtin_outline := builtinHeadings.length
        text_analysis := textHeadings.length
        font_analysis := fontHeadings.length
        position_analysis := positionHeadings.length }
    headings := buildHierarchy finalSorted }

/-- The value extract_all_headings returns: a bare error object on load
failure, the report otherwise. -/
inductive ExtractResult where
  | err (msg : String)
  | report (r : Report)

def extractAllHeadings (fileExists : Bool) (parsed : Option PdfDoc) : ExtractResult :=
  match loadPdf fileExists parsed with
  | none => .err "Failed to load PDF"
  | some d => .report (extractAllHeadingsCore d)

/-- Outcome of one run of the command: what convert_to_json wrote to the
output file (none when opening or writing raised), whether it returned a
path, what main printed, and the process exit status. -/
structure RunOutcome where
  written : Option ExtractResult
  returnedPath : Bool
  printedSuccess : Bool
  exitCode : Nat

/-- convert_to_json followed by main: the result of extract_all_headings,
error object or report, is serialized to the output file whenever writing
succeeds, and convert_to_json then returns the output path; main prints
success and exits 0 exactly when a path came back, and prints failure and
exits 1 otherwise. -/
def mainRun (fileExists : Bool) (parsed : Option PdfDoc) (writeOk : Bool) : RunOutcome :=
  let result := extractAllHeadings fileExists parsed
  if writeOk then ⟨some result, true, true, 0⟩ else ⟨none, false, false, 1⟩

/-- True exactly when the computation did not raise. -/
def exceptOk : Except String (Option Candidate) → Bool
  | .ok _ => true
  | .error _ => false

/-- Confidence window of the amended claim C2: at least 0.6 and at most
1. -/
def confWithinBounds (c : Candidate) : Bool :=
  decide (mkRat 3 5 ≤ c.confidence) && decide (c.confidence ≤ 1)

/-- Confidence window lifted to the exception-aware per-line results. -/
def exceptConfOK : Except String (Option Candidate) → Bool
  | .ok (some c) => confWithinBounds c
  | _ => true

/-- The duplicate test of the deduplication scan: identical normalized
titles, or word-set similarity above 0.8. -/
def dupCheck (h e : Candidate) : Bool :=
  decide (normalizeTitle h.title = normalizeTitle e.title) ||
    decide (mkRat 4 5 < calculateSimilarity (normalizeTitle h.title) (normalizeTitle e.title))

/-- Every root of the forest has level strictly above lvl. -/
def hforestGT (lvl : Nat) : HForest → Bool
  | .nil => true
  | .cons h t => decide (lvl < hnodeLevel h) && hforestGT lvl t

/- Levels strictly increase along every parent-child edge of the tree. -/
mutual
def hnodeInc : HNode → Bool
  | .mk c cs => hforestGT c.level cs && hforestInc cs
def hforestInc : HForest → Bool
  | .nil => true
  | .cons h t => hnodeInc h && hforestInc t
end

/-- Open stack entry invariant: every already-attached child subtree of
the entry has a root level strictly above the entry and strictly
increasing levels inside. -/
def kidsOK (lvl : Nat) (kids : List HNode) : Bool :=
  kids.all (fun n => decide (lvl < hnodeLevel n)) && kids.all hnodeInc

/-- The stack is strictly decreasing in level from its top (the head)
downwards. -/
def stackDesc : List (Candidate × List HNode) → Bool
  | [] => true
  | (p, _) :: below =>
    (match below with
     | [] => true
     | (q, _) :: _ => decide (q.level < p.level)) && stackDesc below

/-- Entry invariant over the whole stack. -/
def stackEntriesOK (s : List (Candidate × List HNode)) : Bool :=
  s.all (fun pk => kidsOK pk.1.level pk.2)

/-- The stack is empty or its top entry has level strictly below n. -/
def stackTopLT (s : List (Candidate × List HNode)) (n : Nat) : Bool :=
  match s with
  | [] => true
  | (q, _) :: _ => decide (q.level < n)

/-- Number of candidates of one source in a flat list. -/
def countSourceIn (src : String) (l : List Candidate) : Nat :=
  (l.filter (fun c => c.source == src)).length

/-- Example candidates for instantiating the duplicate-resolution
statement: the two normalized titles coincide. -/
def sampleH : Candidate :=
  ⟨"Results", 0, some 1, some 2, "text_analysis", mkRat 4 5⟩

def sampleE : Candidate :=
  ⟨"results", 1, some 1, some 3, "font_analysis", mkRat 3 5⟩

/-- C4: behavior of the text cleaner at the failing inputs.  The claim
says a form feed becomes a newline and blank-line runs collapse to one
newline; but the first substitution replaces every whitespace run,
newlines and form feeds included, by one space, so the later two
substitutions never see a form feed or a newline.  A form feed between
two letters comes out as a space, not a newline, and a blank line between
two letters also comes out as a space rather than a newline. -/
theorem c4_code_behavior :
    cleanExtractedText (String.mk ['a', Char.ofNat 12, 'b']) = "a b" ∧
    cleanExtractedText "a\n\nb" = "a b" := by
  exact ⟨rfl, rfl⟩

/-- C1: code behavior on a load failure with a writable output location.
extract_all_headings does return the single top-level error object, but
convert_to_json serializes that object to the output file all the same and
returns the output path, so main prints the success message and exits 0.
The claim promises no output file and a nonzero exit.  All three load
failure modes funnel into the same path. -/
theorem c1_code_behavior :
    loadPdf false (some ⟨"f.pdf", ["x"], .nil⟩) = none ∧
    loadPdf true none = none ∧
    loadPdf true (some ⟨"f.pdf", [], .nil⟩) = none ∧
    (mainRun false (some ⟨"f.pdf", ["x"], .nil⟩) true).written =
      some (.err "Failed to load PDF") ∧
    (mainRun false (some ⟨"f.pdf", ["x"], .nil⟩) true).exitCode = 0 ∧
    (mainRun false (some ⟨"f.pdf", ["x"], .nil⟩) true).printedSuccess = true := by
  exact ⟨rfl, rfl, rfl, rfl, rfl, rfl⟩

/-- C3 counterexample: on the four-line page of the scenario the
pattern-based text detector emits no candidates at all, not the two
numbered headings the claim states. -/
theorem c3_counterexample :
    (extractHeadingsFromText
      ["1. Introduction\nThis describes the overall approach.\n2. Methodology\nDetails follow."]).length
      ≠ 2 := by
  decide

/-- C3 amended: the cleaner collapses the newlines of the page into
spaces, so the whole page becomes the single line shown below; that line
ends in a period and splits into more than ten words, so the regular-text
exclusion drops it and the detector emits nothing. -/
theorem c3_amended :
    extractHeadingsFromText
      ["1. Introduction\nThis describes the overall approach.\n2. Methodology\nDetails follow."]
      = [] ∧
    cleanExtractedText
      "1. Introduction\nThis describes the overall approach.\n2. Methodology\nDetails follow."
      = "1. Introduction This describes the overall approach. 2. Methodology Details follow." := by
  exact ⟨rfl, rfl⟩

/-- C2 counterexample: the font detector emits its candidates with
confidence exactly 0.6, so an all-caps page line yields a candidate whose
confidence is not strictly greater than 0.6. -/
theorem c2_counterexample :
    extractHeadingsByFont ["HELLO WORLD"] =
      [⟨"HELLO WORLD", 1, some 1, some 1, "font_analysis", mkRat 3 5⟩] ∧
    ((extractHeadingsByFont ["HELLO WORLD"]).all
      (fun c => decide (mkRat 3 5 < c.confidence))) = false := by
  exact ⟨by decide, by decide⟩

/-- Every candidate minted from a flattened outline record carries the
builtin_outline stamp and confidence 0.95. -/
theorem builtinStamp_all (l : List OutlineRec) :
    (l.map (fun r =>
        (⟨r.title, r.level, r.page_number, none, "builtin_outline", mkRat 19 20⟩ : Candidate))).all
      (fun c => c.source == "builtin_outline" && c.confidence == mkRat 19 20) = true := by
  induction l with
  | nil => rfl
  | cons r t ih => simp [List.all_cons, ih]

/-- C7: every builtin-outline candidate is tagged source builtin_outline
with confidence 0.95; the page resolution adds one to the 0-based source
reference for integer-like pages, for float-like pages after truncation,
and for string pages through the first embedded digit run; no resolvable
page gives a null page number; and the scenario entry with title Chapter 1
and float page 2.0 resolves to page number 3. -/
theorem c7_confirmed (o : OutlineForest) (n : Int) (x : Rat) (s : String) :
    (extractBuiltinOutline o).all
      (fun c => c.source == "builtin_outline" && c.confidence == mkRat 19 20) = true ∧
    getPageNumber (some (.intRef n)) = some (n + 1) ∧
    getPageNumber (some (.floatRef x)) = some (ratTrunc x + 1) ∧
    getPageNumber (some (.strRef s)) =
      (firstDigitRun s.data).map (fun ds => (digitsToNat ds : Int) + 1) ∧
    getPageNumber (none : Option PageRef) = none ∧
    extractBuiltinOutline (.consEntry "Chapter 1" (some (.floatRef 2)) .nil) =
      [⟨"Chapter 1", 0, some 3, none, "builtin_outline", mkRat 19 20⟩] := by
  refine ⟨?_, rfl, rfl, ?_, rfl, by decide⟩
  · unfold extractBuiltinOutline
    split
    · rfl
    · exact builtinStamp_all (processOutlineItems o 0)
  · unfold getPageNumber
    cases h : firstDigitRun s.data <;> simp [h]

/-- The text-analysis line analyzer never raises: the only subscript
access sits behind the minimum-length guard. -/
theorem analyzeCore_ok (l : List Char) (p ln : Nat) : exceptOk (analyzeCore l p ln) = true := by
  cases l with
  | nil => rfl
  | cons c cs =>
    unfold analyzeCore
    simp only [charAt0]
    repeat' split
    all_goals rfl

/-- The font heuristic line analyzer never raises. -/
theorem fontCore_ok (l : List Char) (p ln : Nat) : exceptOk (fontCore l p ln) = true := by
  cases l with
  | nil => rfl
  | cons c cs =>
    unfold fontCore
    simp only [charAt0]
    repeat' split
    all_goals rfl

/-- The position heuristic line analyzer never raises. -/
theorem positionCore_ok (l : List Char) (p ln : Nat) : exceptOk (positionCore l p ln) = true := by
  cases l with
  | nil =>
    unfold positionCore
    split
    · simp_all
    · rfl
  | cons c cs =>
    unfold positionCore
    simp only [charAt0]
    repeat' split
    all_goals rfl

/-- C9: on every input line, for any page and line number, the three
per-line analyzers return normally, either no candidate or one candidate
record; every subscript access of the first character sits behind a guard
that forces the stripped, whitespace-collapsed line to be long enough to
be nonempty, so the IndexError branch is unreachable. -/
theorem c9_confirmed (line : String) (pageNum lineNum : Nat) :
    (exceptOk (analyzeLineE line pageNum lineNum) &&
     exceptOk (fontLineE line pageNum lineNum) &&
     exceptOk (positionLineE line pageNum lineNum)) = true := by
  unfold analyzeLineE fontLineE positionLineE
  rw [analyzeCore_ok, fontCore_ok, positionCore_ok]
  rfl

/-- Every candidate the text-analysis line analyzer emits has confidence
within the window. -/
theorem analyzeCore_conf (l : List Char) (p ln : Nat) :
    exceptConfOK (analyzeCore l p ln) = true := by
  cases l with
  | nil => rfl
  | cons c cs =>
    unfold analyzeCore
    simp only [charAt0]
    repeat' split
    all_goals rfl

/-- Every candidate the font heuristic emits has confidence within the
window. -/
theorem fontCore_conf (l : List Char) (p ln : Nat) :
    exceptConfOK (fontCore l p ln) = true := by
  cases l with
  | nil => rfl
  | cons c cs =>
    unfold fontCore
    simp only [charAt0]
    repeat' split
    all_goals rfl

/-- Every candidate the position heuristic emits has confidence within
the window. -/
theorem positionCore_conf (l : List Char) (p ln : Nat) :
    exceptConfOK (positionCore l p ln) = true := by
  cases l with
  | nil =>
    unfold positionCore
    split
    · simp_all
    · rfl
  | cons c cs =>
    unfold positionCore
    simp only [charAt0]
    repeat' split
    all_goals rfl

/-- Transport of a per-line window bound through the exception
collapse. -/
theorem exceptJoin_conf (r : Except String (Option Candidate)) (c : Candidate)
    (hr : exceptConfOK r = true) (h : exceptJoin r = some c) : confWithinBounds c = true := by
  cases r with
  | error e => exact absurd h (by simp [exceptJoin])
  | ok o =>
    cases o with
    | none => exact absurd h (by simp [exceptJoin])
    | some d =>
      simp only [exceptJoin, Option.some.injEq] at h
      rw [← h]
      simpa [exceptConfOK] using hr

/-- Window bound over the text-analysis per-line loop. -/
theorem collectTextLines_conf (p : Nat) (lns : List (Nat × List Char)) :
    (collectTextLines p lns).all confWithinBounds = true := by
  induction lns with
  | nil => rfl
  | cons pr rest ih =>
    obtain ⟨ln, l⟩ := pr
    unfold collectTextLines
    split
    · exact ih
    · cases hh : analyzeLineForHeading (String.mk (pyStrip l)) p ln with
      | none => simpa [hh] using ih
      | some c =>
        have hc : confWithinBounds c = true := by
          refine exceptJoin_conf (analyzeLineE (String.mk (pyStrip l)) p ln) c ?_ hh
          exact analyzeCore_conf (collapseWS (pyStrip (String.mk (pyStrip l)).data)) p ln
        simp [hh, List.all_cons, hc, ih]

/-- Window bound over the font per-line loop. -/
theorem collectFontLines_conf (p : Nat) (lns : List (Nat × List Char)) :
    (collectFontLines p lns).all confWithinBounds = true := by
  induction lns with
  | nil => rfl
  | cons pr rest ih =>
    obtain ⟨ln, l⟩ := pr
    unfold collectFontLines
    cases hh : exceptJoin (fontLineE (String.mk l) p ln) with
    | none => simpa [hh] using ih
    | some c =>
      have hc : confWithinBounds c = true := by
        refine exceptJoin_conf (fontLineE (String.mk l) p ln) c ?_ hh
        exact fontCore_conf (pyStrip (String.mk l).data) p ln
      simp [hh, List.all_cons, hc, ih]

/-- Window bound over the position per-line loop. -/
theorem collectPositionLines_conf (p : Nat) (lns : List (Nat × List Char)) :
    (collectPositionLines p lns).all confWithinBounds = true := by
  induction lns with
  | nil => rfl
  | cons pr rest ih =>
    obtain ⟨ln, l⟩ := pr
    unfold collectPositionLines
    cases hh : exceptJoin (positionLineE (String.mk l) p ln) with
    | none => simpa [hh] using ih
    | some c =>
      have hc : confWithinBounds c = true := by
        refine exceptJoin_conf (positionLineE (String.mk l) p ln) c ?_ hh
        exact positionCore_conf (pyStrip (String.mk l).data) p ln
      simp [hh, List.all_cons, hc, ih]

/-- A pointwise all-bound lifts through concatMap. -/
theorem concatMap_all {α : Type} (f : α → List Candidate) (P : Candidate → Bool)
    (h : ∀ a, (f a).all P = true) (l : List α) : (concatMap f l).all P = true := by
  induction l with
  | nil => rfl
  | cons a as ih => simp [concatMap, List.all_append, h a, ih]

/-- Window bound for the whole text detector. -/
theorem extractHeadingsFromText_conf (pages : List String) :
    (extractHeadingsFromText pages).all confWithinBounds = true := by
  unfold extractHeadingsFromText
  refine concatMap_all _ _ ?_ _
  intro pr
  unfold textPageHeadings
  split
  · rfl
  · exact collectTextLines_conf pr.1 _

/-- Window bound for the whole font detector. -/
theorem extractHeadingsByFont_conf (pages : List String) :
    (extractHeadingsByFont pages).all confWithinBounds = true := by
  unfold extractHeadingsByFont
  refine concatMap_all _ _ ?_ _
  intro pr
  unfold fontPageHeadings
  split
  · rfl
  · exact collectFontLines_conf pr.1 _

/-- Window bound for the whole position detector. -/
theorem extractHeadingsByPosition_conf (pages : List String) :
    (extractHeadingsByPosition pages).all confWithinBounds = true := by
  unfold extractHeadingsByPosition
  refine concatMap_all _ _ ?_ _
  intro pr
  unfold positionPageHeadings
  split
  · rfl
  · exact collectPositionLines_conf pr.1 _

/-- Window bound for the builtin outline reader. -/
theorem extractBuiltinOutline_conf (o : OutlineForest) :
    (extractBuiltinOutline o).all confWithinBounds = true := by
  unfold extractBuiltinOutline
  split
  · rfl
  · induction processOutlineItems o 0 with
    | nil => rfl
    | cons r t ih =>
      simp only [List.map_cons, List.all_cons, ih, Bool.and_true]
      rfl

/-- C2 amended: every candidate emitted by any of the four detectors has
confidence at least 0.6 and at most 1.0.  The bound is not strict at the
bottom: the font heuristic emits exactly 0.6, while the other three
detectors stay strictly above it. -/
theorem c2_amended (o : OutlineForest) (pages : List String) :
    ((extractBuiltinOutline o).all confWithinBounds &&
     (extractHeadingsFromText pages).all confWithinBounds &&
     (extractHeadingsByFont pages).all confWithinBounds &&
     (extractHeadingsByPosition pages).all confWithinBounds) = true := by
  rw [extractBuiltinOutline_conf, extractHeadingsFromText_conf,
    extractHeadingsByFont_conf, extractHeadingsByPosition_conf]
  rfl

/-- A successful duplicate scan keeps the accepted list at the same
length: it either leaves the list alone or removes one entry and appends
the newcomer. -/
theorem dedupScan_length (h : Candidate) (acc acc2 : List Candidate)
    (hs : dedupScan h acc = some acc2) : acc2.length = acc.length := by
  induction acc generalizing acc2 with
  | nil => cases hs
  | cons e rest ih =>
    rw [dedupScan] at hs
    by_cases h1 : normalizeTitle h.title = normalizeTitle e.title
    · rw [if_pos h1, Option.some.injEq] at hs
      subst hs
      split <;> simp
    · rw [if_neg h1] at hs
      by_cases h2 : mkRat 4 5 < calculateSimilarity (normalizeTitle h.title) (normalizeTitle e.title)
      · rw [if_pos h2, Option.some.injEq] at hs
        subst hs
        split <;> simp
      · rw [if_neg h2] at hs
        cases hr : dedupScan h rest with
        | some a2 =>
          rw [hr, Option.some.injEq] at hs
          subst hs
          simp [ih a2 hr]
        | none => rw [hr] at hs; cases hs

/-- Everything in the list a successful duplicate scan returns is either
an already-accepted entry or the newcomer itself. -/
theorem dedupScan_mem (h : Candidate) (acc acc2 : List Candidate)
    (hs : dedupScan h acc = some acc2) : ∀ c ∈ acc2, c ∈ acc ∨ c = h := by
  induction acc generalizing acc2 with
  | nil => cases hs
  | cons e rest ih =>
    rw [dedupScan] at hs
    by_cases h1 : normalizeTitle h.title = normalizeTitle e.title
    · rw [if_pos h1, Option.some.injEq] at hs
      subst hs
      intro c hc
      split at hc
      · rcases List.mem_append.mp hc with hm | hm
        · exact Or.inl (List.mem_cons_of_mem e hm)
        · exact Or.inr (List.mem_singleton.mp hm)
      · exact Or.inl hc
    · rw [if_neg h1] at hs
      by_cases h2 : mkRat 4 5 < calculateSimilarity (normalizeTitle h.title) (normalizeTitle e.title)
      · rw [if_pos h2, Option.some.injEq] at hs
        subst hs
        intro c hc
        split at hc
        · rcases List.mem_append.mp hc with hm | hm
          · exact Or.inl (List.mem_cons_of_mem e hm)
          · exact Or.inr (List.mem_singleton.mp hm)
        · exact Or.inl hc
      · rw [if_neg h2] at hs
        cases hr : dedupScan h rest with
        | some a2 =>
          rw [hr, Option.some.injEq] at hs
          subst hs
          intro c hc
          rcases List.mem_cons.mp hc with hm | hm
          · exact Or.inl (hm ▸ List.mem_cons_self e rest)
          · rcases ih a2 hr c hm with h3 | h3
            · exact Or.inl (List.mem_cons_of_mem e h3)
            · exact Or.inr h3
        | none => rw [hr] at hs; cases hs

/-- The deduplication loop grows the accepted list by at most one entry
per incoming heading. -/
theorem dedupFold_length (hs : List Candidate) (acc : List Candidate) :
    (dedupFold acc hs).length ≤ acc.length + hs.length := by
  induction hs generalizing acc with
  | nil => simp [dedupFold]
  | cons hd tl ih =>
    unfold dedupFold
    split
    · have := ih acc
      simp only [List.length_cons]
      omega
    · cases hsc : dedupScan hd acc with
      | some acc2 =>
        have h1 := ih acc2
        have h2 := dedupScan_length hd acc acc2 hsc
        simp only [List.length_cons]
        omega
      | none =>
        have h1 := ih (acc ++ [hd])
        simp only [List.length_append, List.length_singleton] at h1
        simp only [List.length_cons]
        omega

/-- Everything the deduplication loop returns came from the accepted list
or from the incoming headings. -/
theorem dedupFold_mem (hs : List Candidate) (acc : List Candidate) :
    ∀ c ∈ dedupFold acc hs, c ∈ acc ∨ c ∈ hs := by
  induction hs generalizing acc with
  | nil =>
    intro c hc
    exact Or.inl (by simpa [dedupFold] using hc)
  | cons hd tl ih =>
    intro c hc
    unfold dedupFold at hc
    split at hc
    · rcases ih acc c hc with h1 | h1
      · exact Or.inl h1
      · exact Or.inr (List.mem_cons_of_mem hd h1)
    · cases hsc : dedupScan hd acc with
      | some acc2 =>
        rw [hsc] at hc
        rcases ih acc2 c hc with h1 | h1
        · rcases dedupScan_mem hd acc acc2 hsc c h1 with h2 | h2
          · exact Or.inl h2
          · exact Or.inr (by rw [h2]; exact List.mem_cons_self hd tl)
        · exact Or.inr (List.mem_cons_of_mem hd h1)
      | none =>
        rw [hsc] at hc
        rcases ih (acc ++ [hd]) c hc with h1 | h1
        · rcases List.mem_append.mp h1 with h2 | h2
          · exact Or.inl h2
          · exact Or.inr (by rw [List.mem_singleton.mp h2]; exact List.mem_cons_self hd tl)
        · exact Or.inr (List.mem_cons_of_mem hd h1)

/-- C10: the deduplication engine only ever returns candidate records
that are elements of its input list, with every field unchanged, and its
output is never longer than its input. -/
theorem c10_confirmed (headings : List Candidate) :
    (advancedDeduplication headings).length ≤ headings.length ∧
    (advancedDeduplication headings).all (fun c => decide (c ∈ headings)) = true := by
  constructor
  · have := dedupFold_length headings []
    simpa [advancedDeduplication] using this
  · rw [List.all_eq_true]
    intro c hc
    rw [decide_eq_true_eq]
    rcases dedupFold_mem headings [] c hc with h1 | h1
    · cases h1
    · exact h1

/-- C5 counterexample: on this three-candidate input the engine leaves
two accepted candidates whose word-set Jaccard similarity is 5/6, above
the 0.8 bound the claim promises.  The third candidate is detected as a
duplicate of the first, replaces it, and is appended at the end without
being re-checked against the second. -/
theorem c5_counterexample :
    advancedDeduplication
      [⟨"a b c d e", 0, some 1, some 1, "text_analysis", mkRat 7 10⟩,
       ⟨"a b c d f", 0, some 1, some 2, "text_analysis", mkRat 7 10⟩,
       ⟨"a b c d e f", 0, some 1, some 3, "text_analysis", mkRat 9 10⟩] =
      [⟨"a b c d f", 0, some 1, some 2, "text_analysis", mkRat 7 10⟩,
       ⟨"a b c d e f", 0, some 1, some 3, "text_analysis", mkRat 9 10⟩] ∧
    mkRat 4 5 < calculateSimilarity (normalizeTitle "a b c d f") (normalizeTitle "a b c d e f") := by
  exact ⟨by decide, by decide⟩

/-- C5 amended: the engine resolves each duplicate pairwise.  When an
incoming candidate is a duplicate of no already-accepted entry in the
prefix scanned so far and is a duplicate of the next accepted entry, the
scan stops there and of that one pair the strictly-higher-confidence
member is retained, ties favoring the accepted entry; a retained newcomer
is appended at the end of the accepted list and is not compared with the
remaining accepted entries, so the output can retain a pair with
similarity above 0.8. -/
theorem c5_amended (h e : Candidate) (before rest : List Candidate)
    (hb : before.all (fun b => !dupCheck h b) = true)
    (he : dupCheck h e = true) :
    dedupScan h (before ++ e :: rest) =
      some (if e.confidence < h.confidence then before ++ rest ++ [h]
            else before ++ e :: rest) := by
  induction before with
  | nil =>
    simp only [List.nil_append]
    rw [dedupScan]
    by_cases h1 : normalizeTitle h.title = normalizeTitle e.title
    · rw [if_pos h1]
    · have h2 : mkRat 4 5 < calculateSimilarity (normalizeTitle h.title) (normalizeTitle e.title) := by
        simp only [dupCheck, Bool.or_eq_true, decide_eq_true_eq] at he
        tauto
      rw [if_neg h1, if_pos h2]
  | cons b bs ih =>
    simp only [List.all_cons, Bool.and_eq_true] at hb
    obtain ⟨hb1, hb2⟩ := hb
    have hd : dupCheck h b = false := by simpa using hb1
    simp only [dupCheck, Bool.or_eq_false_iff, decide_eq_false_iff_not] at hd
    obtain ⟨hc1, hc2⟩ := hd
    simp only [List.cons_append]
    rw [dedupScan, if_neg hc1, if_neg hc2, ih hb2]
    split
    · next a2 heq =>
        injection heq with heq2
        subst heq2
        split <;> simp
    · next heq => exact Option.noConfusion heq

/-- Witness for the amended C5 statement at a concrete pair: sampleH and
sampleE normalize to the same title, sampleE has the lower confidence, so
sampleH survives and is appended. -/
theorem c5_amended_witness :
    (([] : List Candidate).all (fun b => !dupCheck sampleH b) = true) ∧
    dupCheck sampleH sampleE = true ∧
    dedupScan sampleH ([] ++ sampleE :: []) =
      some (if sampleE.confidence < sampleH.confidence then [] ++ [] ++ [sampleH]
            else [] ++ sampleE :: []) :=
  ⟨by decide, by decide, c5_amended sampleH sampleE [] [] (by decide) (by decide)⟩

/-- C8: each count in the extraction_methods block of the report equals
the length of the raw candidate list the corresponding detector produced,
before deduplication.  At the concrete one-page document the font count
stays 1 even though no font candidate survives deduplication, so the
counts are not post-deduplication counts. -/
theorem c8_confirmed (d : PdfDoc) :
    (extractAllHeadingsCore d).extraction_methods.builtin_outline =
      (extractBuiltinOutline d.outline).length ∧
    (extractAllHeadingsCore d).extraction_methods.text_analysis =
      (extractHeadingsFromText d.pages).length ∧
    (extractAllHeadingsCore d).extraction_methods.font_analysis =
      (extractHeadingsByFont d.pages).length ∧
    (extractAllHeadingsCore d).extraction_methods.position_analysis =
      (extractHeadingsByPosition d.pages).length ∧
    (extractAllHeadingsCore ⟨"doc.pdf", ["HELLO WORLD"], .nil⟩).extraction_methods.font_analysis
      = 1 ∧
    countSourceIn "font_analysis"
      (advancedDeduplication (allDetectorHeadings ⟨"doc.pdf", ["HELLO WORLD"], .nil⟩)) = 0 := by
  exact ⟨rfl, rfl, rfl, rfl, by decide, by decide⟩

/-- Root-level bound of a forest converted from a node list. -/
theorem hforestGT_listToHForest (lvl : Nat) (ks : List HNode) :
    hforestGT lvl (listToHForest ks) = ks.all (fun n => decide (lvl < hnodeLevel n)) := by
  induction ks with
  | nil => rfl
  | cons k t ih => simp [listToHForest, hforestGT, ih, List.all_cons]

/-- Strict-increase predicate of a forest converted from a node list. -/
theorem hforestInc_listToHForest (ks : List HNode) :
    hforestInc (listToHForest ks) = ks.all hnodeInc := by
  induction ks with
  | nil => rfl
  | cons k t ih => simp [listToHForest, hforestInc, ih, List.all_cons]

/-- A node built from a candidate and well-formed children whose levels
all lie strictly above the candidate satisfies the strict-increase
predicate. -/
theorem hnodeInc_mk (c : Candidate) (ks : List HNode)
    (h1 : ks.all (fun n => decide (c.level < hnodeLevel n)) = true)
    (h2 : ks.all hnodeInc = true) :
    hnodeInc (HNode.mk c (listToHForest ks)) = true := by
  rw [hnodeInc, hforestGT_listToHForest, hforestInc_listToHForest, h1, h2]
  rfl

/-- The pop-and-attach chain preserves the stack invariants, keeps every
emitted root well formed, and leaves a stack whose top is strictly below
lvl. -/
theorem attachAndContinue_inv (lvl : Nat) (stack : List (Candidate × List HNode)) :
    ∀ (rootsRev : List HNode) (node : HNode),
    stackDesc stack = true →
    stackEntriesOK stack = true →
    rootsRev.all hnodeInc = true →
    hnodeInc node = true →
    stackTopLT stack (hnodeLevel node) = true →
    stackDesc (attachAndContinue lvl node stack rootsRev).1 = true ∧
    stackEntriesOK (attachAndContinue lvl node stack rootsRev).1 = true ∧
    (attachAndContinue lvl node stack rootsRev).2.all hnodeInc = true ∧
    stackTopLT (attachAndContinue lvl node stack rootsRev).1 lvl = true := by
  induction stack with
  | nil =>
    intro rootsRev node _ _ hr hn _
    refine ⟨rfl, rfl, ?_, rfl⟩
    simp [attachAndContinue, List.all_cons, hn, hr]
  | cons qk bb ih =>
    obtain ⟨q, qkids⟩ := qk
    intro rootsRev node hd he hr hn ht
    simp only [stackDesc, Bool.and_eq_true] at hd
    obtain ⟨hd1, hd2⟩ := hd
    simp only [stackEntriesOK, List.all_cons, Bool.and_eq_true] at he
    obtain ⟨he1, he2⟩ := he
    simp only [stackTopLT, decide_eq_true_eq] at ht
    simp only [kidsOK, Bool.and_eq_true] at he1
    obtain ⟨he1a, he1b⟩ := he1
    unfold attachAndContinue
    split
    · next hle =>
      have hnode2 : hnodeInc (HNode.mk q (listToHForest (node :: qkids).reverse)) = true := by
        refine hnodeInc_mk q (node :: qkids).reverse ?_ ?_
        · rw [List.all_reverse, List.all_cons]
          simp only [Bool.and_eq_true, decide_eq_true_eq]
          exact ⟨ht, by simpa using he1a⟩
        · rw [List.all_reverse, List.all_cons]
          simp only [Bool.and_eq_true]
          exact ⟨hn, by simpa using he1b⟩
      have htop2 : stackTopLT bb (hnodeLevel (HNode.mk q (listToHForest (node :: qkids).reverse))) = true := by
        cases bb with
        | nil => rfl
        | cons rk rr =>
          obtain ⟨r, rkids⟩ := rk
          simpa [stackTopLT, hnodeLevel] using hd1
      exact ih rootsRev (HNode.mk q (listToHForest (node :: qkids).reverse))
        hd2 he2 hr hnode2 htop2
    · next hnle =>
      refine ⟨?_, ?_, hr, ?_⟩
      · simp only [stackDesc, Bool.and_eq_true]
        constructor
        · cases bb with
          | nil => rfl
          | cons rk rr => simpa using hd1
        · exact hd2
      · simp only [stackEntriesOK, List.all_cons, Bool.and_eq_true]
        refine ⟨?_, he2⟩
        simp only [kidsOK, List.all_cons, Bool.and_eq_true]
        exact ⟨⟨by simpa using ht, by simpa using he1a⟩, ⟨hn, by simpa using he1b⟩⟩
      · simp only [stackTopLT, decide_eq_true_eq]
        omega

/-- The while loop of the hierarchy builder preserves the stack
invariants and leaves a stack whose top is strictly below lvl. -/
theorem popStack_inv (lvl : Nat) (stack : List (Candidate × List HNode))
    (rootsRev : List HNode)
    (hd : stackDesc stack = true)
    (he : stackEntriesOK stack = true)
    (hr : rootsRev.all hnodeInc = true) :
    stackDesc (popStack lvl stack rootsRev).1 = true ∧
    stackEntriesOK (popStack lvl stack rootsRev).1 = true ∧
    (popStack lvl stack rootsRev).2.all hnodeInc = true ∧
    stackTopLT (popStack lvl stack rootsRev).1 lvl = true := by
  cases stack with
  | nil => exact ⟨rfl, rfl, hr, rfl⟩
  | cons pk below =>
    obtain ⟨p, kids⟩ := pk
    simp only [stackDesc, Bool.and_eq_true] at hd
    obtain ⟨hd1, hd2⟩ := hd
    simp only [stackEntriesOK, List.all_cons, Bool.and_eq_true] at he
    obtain ⟨he1, he2⟩ := he
    simp only [kidsOK, Bool.and_eq_true] at he1
    obtain ⟨he1a, he1b⟩ := he1
    simp only [popStack]
    split
    · next hle =>
      have hnode : hnodeInc (HNode.mk p (listToHForest kids.reverse)) = true := by
        refine hnodeInc_mk p kids.reverse ?_ ?_
        · rw [List.all_reverse]; exact he1a
        · rw [List.all_reverse]; exact he1b
      have htop : stackTopLT below (hnodeLevel (HNode.mk p (listToHForest kids.reverse))) = true := by
        cases below with
        | nil => rfl
        | cons rk rr =>
          obtain ⟨r, rkids⟩ := rk
          simpa [stackTopLT, hnodeLevel] using hd1
      exact attachAndContinue_inv lvl below rootsRev
        (HNode.mk p (listToHForest kids.reverse)) hd2 he2 hr hnode htop
    · next hnle =>
      refine ⟨?_, ?_, hr, ?_⟩
      · simp only [stackDesc, Bool.and_eq_true]
        exact ⟨hd1, hd2⟩
      · simp only [stackEntriesOK, List.all_cons, Bool.and_eq_true]
        refine ⟨?_, he2⟩
        simp only [kidsOK, Bool.and_eq_true]
        exact ⟨he1a, he1b⟩
      · simp only [stackTopLT, decide_eq_true_eq]
        omega

/-- The for loop of the hierarchy builder preserves the stack
invariants. -/
theorem hierLoop_inv (cs : List Candidate) :
    ∀ (stack : List (Candidate × List HNode)) (rootsRev : List HNode),
    stackDesc stack = true →
    stackEntriesOK stack = true →
    rootsRev.all hnodeInc = true →
    stackDesc (hierLoop cs stack rootsRev).1 = true ∧
    stackEntriesOK (hierLoop cs stack rootsRev).1 = true ∧
    (hierLoop cs stack rootsRev).2.all hnodeInc = true := by
  induction cs with
  | nil => exact fun stack rootsRev hd he hr => ⟨hd, he, hr⟩
  | cons c cs ih =>
    intro stack rootsRev hd he hr
    obtain ⟨pd, pe, pr, pt⟩ := popStack_inv c.level stack rootsRev hd he hr
    unfold hierLoop
    refine ih ((c, []) :: (popStack c.level stack rootsRev).1)
      (popStack c.level stack rootsRev).2 ?_ ?_ pr
    · simp only [stackDesc, Bool.and_eq_true]
      constructor
      · cases hp : (popStack c.level stack rootsRev).1 with
        | nil => rfl
        | cons rk rr =>
          obtain ⟨r, rkids⟩ := rk
          rw [hp] at pt
          simpa [stackTopLT] using pt
      · exact pd
    · simp only [stackEntriesOK, List.all_cons, Bool.and_eq_true]
      exact ⟨rfl, pe⟩

/-- The end-of-input attach chain only emits well-formed roots. -/
theorem flushAttach_inv (stack : List (Candidate × List HNode)) :
    ∀ (rootsRev : List HNode) (node : HNode),
    stackDesc stack = true →
    stackEntriesOK stack = true →
    rootsRev.all hnodeInc = true →
    hnodeInc node = true →
    stackTopLT stack (hnodeLevel node) = true →
    (flushAttach node stack rootsRev).all hnodeInc = true := by
  induction stack with
  | nil =>
    intro rootsRev node _ _ hr hn _
    simp [flushAttach, List.all_cons, hn, hr]
  | cons qk bb ih =>
    obtain ⟨q, qkids⟩ := qk
    intro rootsRev node hd he hr hn ht
    simp only [stackDesc, Bool.and_eq_true] at hd
    obtain ⟨hd1, hd2⟩ := hd
    simp only [stackEntriesOK, List.all_cons, Bool.and_eq_true] at he
    obtain ⟨he1, he2⟩ := he
    simp only [stackTopLT, decide_eq_true_eq] at ht
    simp only [kidsOK, Bool.and_eq_true] at he1
    obtain ⟨he1a, he1b⟩ := he1
    unfold flushAttach
    have hnode2 : hnodeInc (HNode.mk q (listToHForest (node :: qkids).reverse)) = true := by
      refine hnodeInc_mk q (node :: qkids).reverse ?_ ?_
      · rw [List.all_reverse, List.all_cons]
        simp only [Bool.and_eq_true, decide_eq_true_eq]
        exact ⟨ht, by simpa using he1a⟩
      · rw [List.all_reverse, List.all_cons]
        simp only [Bool.and_eq_true]
        exact ⟨hn, by simpa using he1b⟩
    have htop2 : stackTopLT bb (hnodeLevel (HNode.mk q (listToHForest (node :: qkids).reverse))) = true := by
      cases bb with
      | nil => rfl
      | cons rk rr =>
        obtain ⟨r, rkids⟩ := rk
        simpa [stackTopLT, hnodeLevel] using hd1
    exact ih rootsRev (HNode.mk q (listToHForest (node :: qkids).reverse))
      hd2 he2 hr hnode2 htop2

/-- The final drain of the stack only emits well-formed roots. -/
theorem flushStack_inv (stack : List (Candidate × List HNode)) (rootsRev : List HNode)
    (hd : stackDesc stack = true)
    (he : stackEntriesOK stack = true)
    (hr : rootsRev.all hnodeInc = true) :
    (flushStack stack rootsRev).all hnodeInc = true := by
  cases stack with
  | nil => exact hr
  | cons pk below =>
    obtain ⟨p, kids⟩ := pk
    simp only [stackDesc, Bool.and_eq_true] at hd
    obtain ⟨hd1, hd2⟩ := hd
    simp only [stackEntriesOK, List.all_cons, Bool.and_eq_true] at he
    obtain ⟨he1, he2⟩ := he
    simp only [kidsOK, Bool.and_eq_true] at he1
    obtain ⟨he1a, he1b⟩ := he1
    unfold flushStack
    have hnode : hnodeInc (HNode.mk p (listToHForest kids.reverse)) = true := by
      refine hnodeInc_mk p kids.reverse ?_ ?_
      · rw [List.all_reverse]; exact he1a
      · rw [List.all_reverse]; exact he1b
    have htop : stackTopLT below (hnodeLevel (HNode.mk p (listToHForest kids.reverse))) = true := by
      cases below with
      | nil => rfl
      | cons rk rr =>
        obtain ⟨r, rkids⟩ := rk
        simpa [stackTopLT, hnodeLevel] using hd1
    exact flushAttach_inv below rootsRev (HNode.mk p (listToHForest kids.reverse))
      hd2 he2 hr hnode htop

/-- C6: in the forest the hierarchy builder returns for any input
candidate list, the level values strictly increase along every path from
a root to any descendant: the level of every child is strictly greater
than the level of its parent. -/
theorem c6_confirmed (headings : List Candidate) :
    (buildHierarchy headings).all hnodeInc = true := by
  unfold buildHierarchy
  obtain ⟨pd, pe, pr⟩ := hierLoop_inv (stableSort ltLevelPageLine headings) [] [] rfl rfl rfl
  rw [List.all_reverse]
  exact flushStack_inv _ _ pd pe pr
